import Mathlib

/-!
Shallow embedding of the Credential Lifecycle Core of `src/index.js`
(`KeyManager` and the adapter pieces the claims reference), together with
proofs settling the frozen claims.

Modelling conventions:
* `this.data` (a JS object with string keys) is an insertion-ordered
  association list; keys produced by the system are never numeric-like, so
  `Object.keys`/`Object.entries` order is insertion order.
* Instants (`Date.now()`, `expiresAt`) are natural-number milliseconds; the
  single `now` parameter stands for the `Date.now()` calls of one operation.
* The JS regex character class `\s` is modelled as space/tab/LF/CR (the only
  whitespace the codec ever produces), and `.` as any character except the
  ECMAScript line terminators LF, CR, U+2028 and U+2029.
* File I/O is a pair of optional file contents (primary, backup); a missing
  file models ENOENT, and writes succeed.
-/

namespace KeySpec

/-- CONFIG.KEY_EXPIRATION_DAYS = 1 day, in milliseconds. -/
def EXPIRATION_MS : Nat := 86400000

/-- CONFIG.MAX_KEY_LENGTH. -/
def MAX_KEY_LENGTH : Nat := 100

/-- CONFIG.SECURITY.MAX_HWID_CHANGES. -/
def MAX_HWID_CHANGES : Nat := 15

/-- CONFIG.SECURITY.KEY_REGENERATION_LIMIT (24 hours), in milliseconds. -/
def REGEN_WINDOW_MS : Nat := 86400000

/-- A stored credential entry, as built by `KeyManager`. -/
structure Entry where
  userId : String
  hwid : String
  expiresAt : Nat
  createdAt : Int
deriving DecidableEq, Repr

/-- The in-memory table `this.data`. -/
abbrev Store := List (String × Entry)

/-- JS whitespace (`\s`, `trim`), restricted to the characters the codec and
the claims exercise. -/
def wsChar (c : Char) : Bool := c == ' ' || c == '\t' || c == '\n' || c == '\r'

/-- The JS regex `.`: anything but an ECMAScript line terminator
(LF, CR, LINE SEPARATOR U+2028, PARAGRAPH SEPARATOR U+2029). -/
def dotChar (c : Char) : Bool :=
  !(c == '\n') && !(c == '\r') && !(c == '\u2028') && !(c == '\u2029')

/-- `String.prototype.trim`. -/
def trimChars (l : List Char) : List Char :=
  ((l.dropWhile wsChar).reverse.dropWhile wsChar).reverse

/-- `startsWith` on character lists (pattern first). -/
def startsWithList : List Char → List Char → Bool
  | [], _ => true
  | _ :: _, [] => false
  | p :: ps, c :: cs => p == c && startsWithList ps cs

/-- Lowercase hex digit, the class `[0-9a-f]` of `isValidHwid`'s regex. -/
def isHexLower (c : Char) : Bool := c.isDigit || ('a' ≤ c && c ≤ 'f')

/-- The UUID-v4 test of `isValidHwid` (regex plus the redundant split checks),
on an already trimmed and lowercased character list. -/
def uuidV4Shape (l : List Char) : Bool :=
  match l.splitOn '-' with
  | [a, b, c, d, e] =>
    a.length == 8 && b.length == 4 && c.length == 4 && d.length == 4 && e.length == 12 &&
    a.all isHexLower && b.all isHexLower && c.all isHexLower &&
    d.all isHexLower && e.all isHexLower &&
    (match c with | c0 :: _ => c0 == '4' | [] => false) &&
    (match d with | d0 :: _ => d0 == '8' || d0 == '9' || d0 == 'a' || d0 == 'b' | [] => false)
  | _ => false

/-- `KeyManager.isValidHwid`: trims and lowercases the input, then tests the
UUID-v4 shape (the split-based version/variant checks are implied by the
regex and re-done here as in the source). -/
def isValidHwid (h : String) : Bool :=
  uuidV4Shape ((trimChars h.toList).map Char.toLower)

/-- `this.data[key]` read. -/
def lookupKey (st : Store) (k : String) : Option Entry :=
  (st.find? (fun p => p.1 == k)).map (fun p => p.2)

/-- `KeyManager.getKeyByUserId`. -/
def getKeyByUserId (st : Store) (o : String) : Option String :=
  (st.find? (fun p => p.2.userId == o)).map (fun p => p.1)

/-- `KeyManager.getKeyByHwid`. -/
def getKeyByHwid (st : Store) (h : String) : Option String :=
  (st.find? (fun p => p.2.hwid == h)).map (fun p => p.1)

/-- `KeyManager.getKeyData`. -/
def getKeyData (st : Store) (o : String) : Option Entry :=
  match getKeyByUserId st o with
  | some k => lookupKey st k
  | none => none

/-- One element of `KeyManager.getAllKeys`' result. -/
structure KeyView where
  key : String
  userId : String
  hwid : String
  expiresAt : Nat
  createdAt : Int
deriving DecidableEq, Repr

/-- `KeyManager.getAllKeys`: the entries in table (insertion) order. -/
def getAllKeys (st : Store) : List KeyView :=
  st.map (fun p => ⟨p.1, p.2.userId, p.2.hwid, p.2.expiresAt, p.2.createdAt⟩)

/-- JS object assignment `this.data[k] = e`: overwrite in place, else append. -/
def objInsert (st : Store) (k : String) (e : Entry) : Store :=
  if st.any (fun p => p.1 == k) then st.map (fun p => if p.1 == k then (k, e) else p)
  else st ++ [(k, e)]

/-- The error kinds `KeyManager.addKey` throws. -/
inductive KeyErr where
  | invalidHwid
  | alreadyBound
  | hwidInUse
deriving DecidableEq, Repr

/-- `KeyManager.addKey`.  `freshKey` stands for `generateKey()`'s result,
which the do-while loop guarantees absent from the table. -/
def addKey (st : Store) (o h : String) (now : Nat) (freshKey : String) :
    Except KeyErr (String × Nat) × Store :=
  if isValidHwid h = false then (Except.error KeyErr.invalidHwid, st)
  else if (getKeyByUserId st o).isSome then (Except.error KeyErr.alreadyBound, st)
  else if (getKeyByHwid st h).isSome then (Except.error KeyErr.hwidInUse, st)
  else (Except.ok (freshKey, now + EXPIRATION_MS),
        objInsert st freshKey ⟨o, h, now + EXPIRATION_MS, (now : Int)⟩)

/-- `KeyManager.removeKey`. -/
def removeKey (st : Store) (o : String) : Bool × Store :=
  match getKeyByUserId st o with
  | none => (false, st)
  | some k => (true, st.filter (fun p => !(p.1 == k)))

/-- The per-entry removal test of `KeyManager.cleanExpiredKeys`:
`entry.expiresAt && now >= entry.expiresAt` (`expiresAt = 0` is falsy). -/
def expiredNow (now : Nat) (e : Entry) : Bool :=
  !(e.expiresAt == 0) && e.expiresAt ≤ now

/-- `KeyManager.cleanExpiredKeys`: returns the surviving table, the removal
count, and whether `saveData` ran (it runs iff the count is nonzero). -/
def cleanExpiredKeys (st : Store) (now : Nat) : Store × Nat × Bool :=
  let removed := st.filter (fun p => expiredNow now p.2)
  (st.filter (fun p => !(expiredNow now p.2)), removed.length, !(removed.length == 0))

/-- `this.hwidChanges`, a `Map` from user id to recorded timestamps. -/
abbrev HwidChanges := List (String × List Nat)

/-- `this.hwidChanges.get(userId) || []`. -/
def getChanges (m : HwidChanges) (o : String) : List Nat :=
  match m.find? (fun p => p.1 == o) with
  | some p => p.2
  | none => []

/-- `this.hwidChanges.set(userId, l)`. -/
def setChanges (m : HwidChanges) (o : String) (l : List Nat) : HwidChanges :=
  if m.any (fun p => p.1 == o) then m.map (fun p => if p.1 == o then (o, l) else p)
  else m ++ [(o, l)]

/-- The mutable state of a `KeyManager` (`this.data`, `this.hwidChanges`). -/
structure MState where
  data : Store
  hwidChanges : HwidChanges
deriving DecidableEq, Repr

/-- The error kinds `KeyManager.updateHwid` throws. -/
inductive UpdErr where
  | invalidHwid
  | notBound
  | hwidInUse
  | rotationLimit
deriving DecidableEq, Repr

/-- `this.data[key].hwid = newHwid`: in-place field update. -/
def setHwidAt (st : Store) (k : String) (h : String) : Store :=
  st.map (fun p => if p.1 == k then (p.1, { p.2 with hwid := h }) else p)

/-- The pushed-then-filtered rotation list of `updateHwid`: the source pushes
`Date.now()` into `hwidChanges` first and then counts the timestamps newer
than `Date.now() - KEY_REGENERATION_LIMIT` hours, so the current attempt is
part of the count. -/
def rotationRecent (m : HwidChanges) (o : String) (now : Nat) : List Nat :=
  (getChanges m o ++ [now]).filter
    (fun t => (now : Int) - (REGEN_WINDOW_MS : Int) < (t : Int))

/-- `KeyManager.updateHwid`.  The timestamp push survives a rotation-limit
failure (the map is set before the limit check throws). -/
def updateHwid (st : MState) (o newHwid : String) (now : Nat) :
    Except UpdErr Unit × MState :=
  if isValidHwid newHwid = false then (Except.error UpdErr.invalidHwid, st)
  else
    match getKeyByUserId st.data o with
    | none => (Except.error UpdErr.notBound, st)
    | some k =>
      if (getKeyByHwid st.data newHwid).isSome then (Except.error UpdErr.hwidInUse, st)
      else if MAX_HWID_CHANGES ≤ (rotationRecent st.hwidChanges o now).length then
        (Except.error UpdErr.rotationLimit,
         ⟨st.data, setChanges st.hwidChanges o (getChanges st.hwidChanges o ++ [now])⟩)
      else
        (Except.ok (),
         ⟨setHwidAt st.data k newHwid,
          setChanges st.hwidChanges o (getChanges st.hwidChanges o ++ [now])⟩)

/-! ### Codec: the `saveData` serialization and the `loadData` regex parse

The parse models the global JS regex
`/\["(.*?)"\] = {\s*userId = "(.*?)",\s*hwid = "(.*?)",\s*expiresAt = (\d+)\s*}/g`
scanned over the content: at each position the engine tries the pattern
(lazy `(.*?)` groups try the shortest capture first and extend on failure of
the rest of the pattern; `\s*`/`\d+` are deterministic here because the
following literal can never start with a whitespace/digit), and on success
resumes after the match, on failure advances one character. -/

/-- One raw match of the key record regex. -/
structure RawRec where
  key : List Char
  userId : List Char
  hwid : List Char
  expiresAt : Nat
deriving DecidableEq, Repr

/-- Literal `["`. -/
def litOpen : List Char := '[' :: '"' :: []

/-- Literal `"] = {`. -/
def litKeyClose : List Char := '"' :: ']' :: ' ' :: '=' :: ' ' :: '\x7b' :: []

/-- Literal `userId = "`. -/
def litUserId : List Char :=
  'u' :: 's' :: 'e' :: 'r' :: 'I' :: 'd' :: ' ' :: '=' :: ' ' :: '"' :: []

/-- Literal `",`. -/
def litComma : List Char := '"' :: ',' :: []

/-- Literal `hwid = "`. -/
def litHwid : List Char := 'h' :: 'w' :: 'i' :: 'd' :: ' ' :: '=' :: ' ' :: '"' :: []

/-- Literal `expiresAt = `. -/
def litExpires : List Char :=
  'e' :: 'x' :: 'p' :: 'i' :: 'r' :: 'e' :: 's' :: 'A' :: 't' :: ' ' :: '=' :: ' ' :: []

/-- Literal `}`. -/
def litRBrace : List Char := '\x7d' :: []

/-- Consume an exact literal (pattern first), returning the remainder. -/
def expectStr : List Char → List Char → Option (List Char)
  | [], s => some s
  | _ :: _, [] => none
  | p :: ps, c :: cs => if c = p then expectStr ps cs else none

/-- Greedy `\s*`. -/
def skipWs (s : List Char) : List Char := s.dropWhile wsChar

/-- The regex `\d` class. -/
def isDigitChar (c : Char) : Bool := c.isDigit

/-- Numeric value of a digit run, as `parseInt` computes it. -/
def digitsToNat (l : List Char) : Nat :=
  l.foldl (fun a c => a * 10 + (c.toNat - 48)) 0

/-- Greedy `(\d+)` with `parseInt`. -/
def parseDigits (s : List Char) : Option (Nat × List Char) :=
  match s.takeWhile isDigitChar with
  | [] => none
  | ds => some (digitsToNat ds, s.dropWhile isDigitChar)

/-- A lazy group `(.*?)` followed by the rest of the pattern `stop`: try the
shortest capture first, extend by one non-line-terminator character whenever
the rest of the pattern fails. -/
def lazyCapture (stop : List Char → Option α) : List Char → Option (List Char × α)
  | [] => (stop []).map (fun a => ([], a))
  | c :: cs =>
    match stop (c :: cs) with
    | some a => some ([], a)
    | none =>
      if dotChar c then (lazyCapture stop cs).map (fun p => (c :: p.1, p.2))
      else none

/-- Pattern tail after the hwid capture: `",\s*expiresAt = (\d+)\s*}`. -/
def afterHwid (s : List Char) : Option (Nat × List Char) := do
  let s1 ← expectStr litComma s
  let s2 ← expectStr litExpires (skipWs s1)
  let (n, s3) ← parseDigits s2
  let s4 ← expectStr litRBrace (skipWs s3)
  some (n, s4)

/-- Pattern tail after the userId capture: `",\s*hwid = "(.*?)` then `afterHwid`. -/
def afterUserId (s : List Char) : Option ((List Char × Nat) × List Char) := do
  let s1 ← expectStr litComma s
  let s2 ← expectStr litHwid (skipWs s1)
  let (h, p) ← lazyCapture afterHwid s2
  some ((h, p.1), p.2)

/-- Pattern tail after the key capture: `"] = {\s*userId = "(.*?)` then `afterUserId`. -/
def afterKey (s : List Char) : Option ((List Char × List Char × Nat) × List Char) := do
  let s1 ← expectStr litKeyClose s
  let s2 ← expectStr litUserId (skipWs s1)
  let (u, p) ← lazyCapture afterUserId s2
  some ((u, p.1.1, p.1.2), p.2)

/-- Try the whole record pattern at the current position. -/
def matchRecordAt (s : List Char) : Option (RawRec × List Char) := do
  let s1 ← expectStr litOpen s
  let (k, p) ← lazyCapture afterKey s1
  some (⟨k, p.1.1, p.1.2.1, p.1.2.2⟩, p.2)

/-- The global scan of `regex.exec` in a `while` loop; fuel bounds the scan
(one unit per consumed character, so the content's length suffices). -/
def findRecords : Nat → List Char → List RawRec
  | 0, _ => []
  | fuel + 1, s =>
    match matchRecordAt s with
    | some (r, rest) => r :: findRecords fuel rest
    | none =>
      match s with
      | [] => []
      | _ :: cs => findRecords fuel cs

/-- All matches of the key record regex in a content string. -/
def parseRecords (s : List Char) : List RawRec := findRecords s.length s

/-- The entry `loadData`/`importFromLua` builds from one regex match
(`createdAt` is derived from `expiresAt`). -/
def recEntry (r : RawRec) : Entry :=
  ⟨String.mk r.userId, String.mk r.hwid, r.expiresAt,
   (r.expiresAt : Int) - (EXPIRATION_MS : Int)⟩

/-- The table-building loop of `loadData`/`loadBackup`: skip over-long keys,
assign the rest. -/
def buildStore (rs : List RawRec) : Store :=
  rs.foldl
    (fun st r =>
      if MAX_KEY_LENGTH < r.key.length then st
      else objInsert st (String.mk r.key) (recEntry r)) []

/-- Parse a (trimmed) content into a table. -/
def parseStoreContent (t : List Char) : Store := buildStore (parseRecords t)

/-- The leading marker `return {`. -/
def retMarker : List Char :=
  'r' :: 'e' :: 't' :: 'u' :: 'r' :: 'n' :: ' ' :: '\x7b' :: []

/-- Four spaces of the serialization template. -/
def spaces4 : List Char := ' ' :: ' ' :: ' ' :: ' ' :: []

/-- Eight spaces of the serialization template. -/
def spaces8 : List Char := spaces4 ++ spaces4

/-- Fuel-driven digit expansion (fuel at least the number suffices). -/
def natToDigitsAux : Nat → Nat → List Char → List Char
  | 0, n, acc => Char.ofNat (48 + n % 10) :: acc
  | fuel + 1, n, acc =>
    if n < 10 then Char.ofNat (48 + n) :: acc
    else natToDigitsAux fuel (n / 10) (Char.ofNat (48 + n % 10) :: acc)

/-- Decimal digits of a natural number, as JS template interpolation prints
a nonnegative integer. -/
def natToDigits (n : Nat) : List Char := natToDigitsAux n n []

/-- One record of `saveData`'s Lua serialization (line 192 of the source). -/
def encodeEntry (k : String) (e : Entry) : List Char :=
  spaces4 ++ (litOpen ++ (k.toList ++ (litKeyClose ++ ('\n' :: (spaces8 ++ (litUserId ++ (e.userId.toList ++ (litComma ++ ('\n' :: (spaces8 ++ (litHwid ++ (e.hwid.toList ++ (litComma ++ ('\n' :: (spaces8 ++ (litExpires ++ (natToDigits e.expiresAt ++ ('\n' :: (spaces4 ++ (litRBrace ++ (',' :: '\n' :: [])))))))))))))))))))))

/-- The concatenated records of `saveData`'s serialization. -/
def encodeBody : Store → List Char
  | [] => []
  | p :: rest => encodeEntry p.1 p.2 ++ encodeBody rest

/-- `saveData`'s full file content: `return {\n` records `}\n`. -/
def encodeStore (st : Store) : List Char :=
  retMarker ++ ('\n' :: (encodeBody st ++ ('\x7d' :: '\n' :: [])))

/-! ### Store persistence (`loadData` / `loadBackup` / `saveData`) -/

/-- The two backing files; `none` models ENOENT. -/
structure FS where
  primary : Option String
  backup : Option String
deriving DecidableEq, Repr

/-- `saveData`: write the primary file, copy it to the backup. -/
def saveDataFS (st : Store) : FS :=
  ⟨some (String.mk (encodeStore st)), some (String.mk (encodeStore st))⟩

/-- `KeyManager.loadBackup`: parse a valid backup (then persist), initialize
empty otherwise — persisting only when the backup file is absent. -/
def loadBackup (fs : FS) : Store × FS :=
  match fs.backup with
  | none => ([], saveDataFS [])
  | some b =>
    if startsWithList retMarker (trimChars b.toList) = false then ([], fs)
    else (parseStoreContent (trimChars b.toList),
          saveDataFS (parseStoreContent (trimChars b.toList)))

/-- `KeyManager.loadData`: parse a valid primary, fall back to the backup on
a missing file or a missing `return {` marker. -/
def loadData (fs : FS) : Store × FS :=
  match fs.primary with
  | none => loadBackup fs
  | some c =>
    if startsWithList retMarker (trimChars c.toList) = false then loadBackup fs
    else (parseStoreContent (trimChars c.toList), fs)

/-- `KeyManager.importFromLua`: insert every matched record whose token is
not yet present (no hwid/owner uniqueness check, no key length check);
returns the new table and the imported tokens. -/
def importFromLua (st : Store) (content : String) : Store × List String :=
  (parseRecords content.toList).foldl
    (fun acc r =>
      let k := String.mk r.key
      match lookupKey acc.1 k with
      | some _ => acc
      | none => (acc.1 ++ [(k, recEntry r)], acc.2 ++ [k]))
    (st, [])

/-! ### The listing adapter's sort (`handleCheckList`) -/

/-- Stable insertion into an expiresAt-sorted list: the model of one step of
`keys.sort((a, b) => a.expiresAt - b.expiresAt)`, which is a stable sort. -/
def insertByExpiresAt (x : KeyView) : List KeyView → List KeyView
  | [] => [x]
  | y :: ys =>
    if x.expiresAt ≤ y.expiresAt then x :: y :: ys
    else y :: insertByExpiresAt x ys

/-- The stable sort by ascending `expiresAt` that `handleCheckList` applies
to `getAllKeys()`'s result. -/
def sortByExpiresAt : List KeyView → List KeyView
  | [] => []
  | x :: xs => insertByExpiresAt x (sortByExpiresAt xs)

/-! ### Reachability and the per-owner/per-hwid uniqueness invariant -/

/-- States reachable through the Core operations from the empty store. -/
inductive Reachable : MState → Prop
  | init : Reachable ⟨[], []⟩
  | add (st : MState) (o h : String) (now : Nat) (k : String) :
      Reachable st → lookupKey st.data k = none →
      Reachable ⟨(addKey st.data o h now k).2, st.hwidChanges⟩
  | upd (st : MState) (o h : String) (now : Nat) :
      Reachable st → Reachable (updateHwid st o h now).2
  | rem (st : MState) (o : String) :
      Reachable st → Reachable ⟨(removeKey st.data o).2, st.hwidChanges⟩
  | sweep (st : MState) (now : Nat) :
      Reachable st → Reachable ⟨(cleanExpiredKeys st.data now).1, st.hwidChanges⟩
  | imp (st : MState) (c : String) :
      Reachable st → Reachable ⟨(importFromLua st.data c).1, st.hwidChanges⟩

/-- At most one live credential per owner and at most one per hwid: any two
entries that are both live at some instant and share a userId or an hwid are
the same entry. -/
def invC1 (st : Store) : Prop :=
  ∀ p1, p1 ∈ st → ∀ p2, p2 ∈ st → ∀ now : Nat,
    now < p1.2.expiresAt → now < p2.2.expiresAt →
    (p1.2.userId = p2.2.userId ∨ p1.2.hwid = p2.2.hwid) → p1.1 = p2.1

/-! ### Concrete stores and inputs used by the claim theorems -/

/-- Counterexample input for C7: a credential with `expiresAt = 0`. -/
def c7Store : Store := [("K", ⟨"u", "h", 0, 0⟩)]

/-- Counterexample store for C9: two entries inserted with descending
expiry. -/
def c9Store : Store := [("A", ⟨"u1", "h1", 200, 0⟩), ("B", ⟨"u2", "h2", 100, 0⟩)]

/-- A valid lowercase UUID-v4 hwid. -/
def c10Hwid1 : String := "aaaaaaaa-aaaa-4aaa-8aaa-aaaaaaaaaaaa"

/-- The same fingerprint in uppercase: also accepted by `isValidHwid`. -/
def c10Hwid2 : String := "AAAAAAAA-AAAA-4AAA-8AAA-AAAAAAAAAAAA"

/-- A valid hwid used by concrete instantiations. -/
def hwA : String := "cccccccc-cccc-4ccc-8ccc-cccccccccccc"

/-- Another valid hwid used by concrete instantiations. -/
def hwB : String := "dddddddd-dddd-4ddd-9ddd-dddddddddddd"

/-- One-credential store used by concrete instantiations. -/
def oneKeyStore : Store := [("K", ⟨"u", hwA, 1000, 0⟩)]

/-- A manager state whose owner `u` has 14 recorded rebind timestamps, all
inside the trailing window at instant 100. -/
def c3Store : MState :=
  ⟨[("K", ⟨"u", hwA, 1000000000, 0⟩)], [("u", List.replicate 14 100)]⟩

/-- The primary file is missing or lacks the `return {` marker. -/
def primaryInvalid (fs : FS) : Prop :=
  fs.primary = none ∨
    ∃ c, fs.primary = some c ∧ startsWithList retMarker (trimChars c.toList) = false

/-- The counterexample filesystem: no primary, an invalid backup. -/
def c5FS : FS := ⟨none, some "garbage"⟩

/-- Lua content whose two records share a userId and an hwid. -/
def c1BadImport : String :=
  "[\"A\"] = \x7b userId = \"u\", hwid = \"h1\", expiresAt = 999 \x7d " ++
  "[\"B\"] = \x7b userId = \"u\", hwid = \"h1\", expiresAt = 999 \x7d"

/-- The raw regex match corresponding to a stored entry. -/
def rawOf (p : String × Entry) : RawRec :=
  ⟨p.1.toList, p.2.userId.toList, p.2.hwid.toList, p.2.expiresAt⟩

/-- What decoding does to an encoded entry: `createdAt` is re-derived. -/
def decodeEntryOf (e : Entry) : Entry :=
  ⟨e.userId, e.hwid, e.expiresAt, (e.expiresAt : Int) - (EXPIRATION_MS : Int)⟩

/-- A field the wire format can carry verbatim: no embedded double quote and
no ECMAScript line terminator (LF, CR, U+2028, U+2029). -/
def goodField (s : String) : Prop :=
  ∀ c ∈ s.toList, c ≠ '"' ∧ c ≠ '\n' ∧ c ≠ '\r' ∧ c ≠ '\u2028' ∧ c ≠ '\u2029'

/-- All keys and fields of a table are wire-safe. -/
def goodStore (T : Store) : Prop :=
  ∀ p ∈ T, goodField p.1 ∧ goodField p.2.userId ∧ goodField p.2.hwid

/-- A table whose single key contains a newline but no double quote. -/
def c4BadStore : Store := [("a\nb", ⟨"u", "h", 5, 0⟩)]

/-- A wire-safe two-entry table. -/
def c4GoodStore : Store :=
  [("Photon-k1", ⟨"u1", "hw1", 5, 0⟩), ("Photon-k2", ⟨"u2", "hw2", 7, 3⟩)]

/-! ### Helper lemmas -/

theorem find?_append_of_none {α : Type} {p : α → Bool} {l1 l2 : List α}
    (h : l1.find? p = none) : (l1 ++ l2).find? p = l2.find? p := by
  induction l1 with
  | nil => rfl
  | cons a l ih =>
    cases hb : p a with
    | true => rw [List.find?_cons_of_pos _ hb] at h; exact absurd h (by simp)
    | false =>
      rw [List.find?_cons_of_neg _ (by simp [hb])] at h
      rw [List.cons_append, List.find?_cons_of_neg _ (by simp [hb])]
      exact ih h

theorem find?_eq_none_iff {α : Type} {p : α → Bool} {l : List α} :
    l.find? p = none ↔ ∀ x ∈ l, p x = false := by
  induction l with
  | nil => simp
  | cons a l ih =>
    cases hb : p a with
    | true => rw [List.find?_cons_of_pos _ hb]; simp [hb]
    | false => rw [List.find?_cons_of_neg _ (by simp [hb])]; simp [hb, ih]

theorem mem_of_find?_some {α : Type} {p : α → Bool} {l : List α} {a : α}
    (h : l.find? p = some a) : a ∈ l ∧ p a = true := by
  induction l with
  | nil => simp at h
  | cons b l ih =>
    cases hb : p b with
    | true =>
      rw [List.find?_cons_of_pos _ hb, Option.some.injEq] at h
      subst h; exact ⟨List.mem_cons_self b l, hb⟩
    | false =>
      rw [List.find?_cons_of_neg _ (by simp [hb])] at h
      obtain ⟨h1, h2⟩ := ih h
      exact ⟨List.mem_cons_of_mem b h1, h2⟩

theorem find?_isSome_of_mem {α : Type} {p : α → Bool} {l : List α} {a : α}
    (ha : a ∈ l) (hp : p a = true) : (l.find? p).isSome = true := by
  cases h : l.find? p with
  | some b => rfl
  | none => exact absurd (find?_eq_none_iff.mp h a ha) (by simp [hp])

/-- A membership-shrinking operation preserves the uniqueness invariant. -/
theorem invC1_of_subset {st st' : Store} (h : ∀ p, p ∈ st' → p ∈ st)
    (hi : invC1 st) : invC1 st' :=
  fun p1 h1 p2 h2 now l1 l2 hor => hi p1 (h p1 h1) p2 (h p2 h2) now l1 l2 hor

theorem invC1_nil : invC1 [] := by
  intro p1 h1
  exact absurd h1 (List.not_mem_nil p1)

theorem invC1_singleton (p : String × Entry) : invC1 [p] := by
  intro p1 h1 p2 h2 now _ _ _
  rw [List.mem_singleton] at h1 h2
  rw [h1, h2]

theorem lookupKey_append_of_none {st : Store} {k : String} {rest : Store}
    (h : lookupKey st k = none) :
    lookupKey (st ++ rest) k = lookupKey rest k := by
  unfold lookupKey at *
  rw [find?_append_of_none]
  cases hf : st.find? (fun p => p.1 == k) with
  | none => rfl
  | some p => rw [hf] at h; simp at h

/-! ### Claim C7 (Sweep) -/

/-- Claim C7, counterexample: the claim demands that `Sweep(5)` remove the
credential with `expiresAt = 0 ≤ 5` and report count 1, but the source's
truthiness test `entry.expiresAt && now >= entry.expiresAt` skips it: the
table is unchanged, the count is 0 and nothing is persisted. -/
theorem c7_sweep_zero_expiry_counterexample :
    (∀ p ∈ c7Store, p.2.expiresAt ≤ 5) ∧
    cleanExpiredKeys c7Store 5 = (c7Store, 0, false) := by decide

/-- Claim C7 (amended): `cleanExpiredKeys now` removes exactly the
credentials with *nonzero* `expiresAt ≤ now`, returns their count, persists
iff the count is nonzero, and an immediate second sweep removes 0 entries
and does not persist. -/
theorem expiredNow_true_iff (now : Nat) (e : Entry) :
    expiredNow now e = true ↔ (e.expiresAt ≠ 0 ∧ e.expiresAt ≤ now) := by
  simp [expiredNow]

theorem c7_sweep_exact (st : Store) (now : Nat) :
    (∀ p, p ∈ (cleanExpiredKeys st now).1 ↔
        p ∈ st ∧ ¬(p.2.expiresAt ≠ 0 ∧ p.2.expiresAt ≤ now)) ∧
    (cleanExpiredKeys st now).2.1 =
      (st.filter (fun p => expiredNow now p.2)).length ∧
    ((cleanExpiredKeys st now).2.2 = true ↔ (cleanExpiredKeys st now).2.1 ≠ 0) ∧
    cleanExpiredKeys (cleanExpiredKeys st now).1 now =
      ((cleanExpiredKeys st now).1, 0, false) := by
  refine ⟨?_, rfl, ?_, ?_⟩
  · intro p
    rw [show (cleanExpiredKeys st now).1 =
        st.filter (fun q => !(expiredNow now q.2)) from rfl, List.mem_filter]
    constructor
    · rintro ⟨hm, hf⟩
      refine ⟨hm, fun hc => ?_⟩
      rw [(expiredNow_true_iff now p.2).mpr hc] at hf
      simp at hf
    · rintro ⟨hm, hn⟩
      refine ⟨hm, ?_⟩
      cases hx : expiredNow now p.2
      · simp
      · exact absurd ((expiredNow_true_iff now p.2).mp hx) hn
  · simp only [cleanExpiredKeys]
    constructor
    · intro h hz
      rw [hz] at h
      simp at h
    · intro h
      simpa using h
  · simp only [cleanExpiredKeys, List.filter_filter]
    have hnil :
        (st.filter (fun a => expiredNow now a.2 && !expiredNow now a.2)) = [] := by
      apply List.filter_eq_nil_iff.mpr
      intro p _
      cases expiredNow now p.2 <;> simp
    have hsame :
        (st.filter (fun a => !expiredNow now a.2 && !expiredNow now a.2)) =
          st.filter (fun a => !expiredNow now a.2) := by
      apply List.filter_congr
      intro p _
      cases expiredNow now p.2 <;> simp
    rw [hnil, hsame]
    simp

/-! ### Claim C9 (ListAll ordering) -/

/-- Claim C9, counterexample: `getAllKeys` itself returns the table in
insertion order, which here is not sorted by `expiresAt`; the sorting the
claim describes only happens in `handleCheckList`. -/
theorem c9_getAllKeys_not_sorted_counterexample :
    (getAllKeys c9Store).map KeyView.expiresAt = [200, 100] ∧
    ¬ List.Pairwise (fun a b : KeyView => a.expiresAt ≤ b.expiresAt)
        (getAllKeys c9Store) := by
  constructor
  · rfl
  · intro h
    have := List.rel_of_pairwise_cons h (List.mem_singleton.mpr rfl)
    simp [getAllKeys, c9Store] at this

theorem insertByExpiresAt_perm (x : KeyView) (l : List KeyView) :
    (insertByExpiresAt x l).Perm (x :: l) := by
  induction l with
  | nil => exact List.Perm.refl _
  | cons y ys ih =>
    rw [insertByExpiresAt]
    by_cases h : x.expiresAt ≤ y.expiresAt
    · rw [if_pos h]
    · rw [if_neg h]
      exact ((ih.cons y).trans (List.Perm.swap x y ys))

theorem mem_insertByExpiresAt {x z : KeyView} {l : List KeyView}
    (h : z ∈ insertByExpiresAt x l) : z = x ∨ z ∈ l :=
  List.mem_cons.mp ((insertByExpiresAt_perm x l).mem_iff.mp h)

theorem pairwise_insertByExpiresAt {x : KeyView} {l : List KeyView}
    (h : List.Pairwise (fun a b : KeyView => a.expiresAt ≤ b.expiresAt) l) :
    List.Pairwise (fun a b : KeyView => a.expiresAt ≤ b.expiresAt)
      (insertByExpiresAt x l) := by
  induction l with
  | nil => simp [insertByExpiresAt]
  | cons y ys ih =>
    rw [List.pairwise_cons] at h
    obtain ⟨hy, hys⟩ := h
    rw [insertByExpiresAt]
    by_cases hle : x.expiresAt ≤ y.expiresAt
    · rw [if_pos hle]
      refine List.Pairwise.cons ?_ (List.Pairwise.cons hy hys)
      intro z hz
      rcases List.mem_cons.mp hz with rfl | hz
      · exact hle
      · exact le_trans hle (hy z hz)
    · rw [if_neg hle]
      refine List.Pairwise.cons ?_ (ih hys)
      intro z hz
      rcases mem_insertByExpiresAt hz with rfl | hz
      · exact le_of_not_le hle
      · exact hy z hz

theorem filter_insertByExpiresAt (x : KeyView) (l : List KeyView) (t : Nat) :
    (insertByExpiresAt x l).filter (fun v => v.expiresAt == t) =
      if x.expiresAt = t then x :: l.filter (fun v => v.expiresAt == t)
      else l.filter (fun v => v.expiresAt == t) := by
  induction l with
  | nil =>
    by_cases hx : x.expiresAt = t
    · simp [insertByExpiresAt, hx]
    · simp [insertByExpiresAt, hx]
  | cons y ys ih =>
    rw [insertByExpiresAt]
    by_cases hle : x.expiresAt ≤ y.expiresAt
    · rw [if_pos hle, List.filter_cons]
      by_cases hx : x.expiresAt = t
      · simp [hx]
      · simp [hx]
    · rw [if_neg hle, List.filter_cons, List.filter_cons, ih]
      have hylt : y.expiresAt < x.expiresAt := lt_of_not_le hle
      by_cases hx : x.expiresAt = t
      · have hy : ¬ y.expiresAt = t := by omega
        simp [hx, hy]
      · by_cases hy : y.expiresAt = t
        · simp [hx, hy]
        · simp [hx, hy]

/-- Claim C9 (amended): `getAllKeys` returns insertion order; the listing
handler's stable sort of that sequence is ascending in `expiresAt`, is a
permutation of it, and preserves the insertion order among entries with
equal `expiresAt`. -/
theorem c9_checklist_sort_sorted_stable (st : Store) :
    List.Pairwise (fun a b : KeyView => a.expiresAt ≤ b.expiresAt)
      (sortByExpiresAt (getAllKeys st)) ∧
    (sortByExpiresAt (getAllKeys st)).Perm (getAllKeys st) ∧
    ∀ t : Nat,
      (sortByExpiresAt (getAllKeys st)).filter (fun v => v.expiresAt == t) =
        (getAllKeys st).filter (fun v => v.expiresAt == t) := by
  have hsort : ∀ l : List KeyView,
      List.Pairwise (fun a b : KeyView => a.expiresAt ≤ b.expiresAt)
        (sortByExpiresAt l) := by
    intro l
    induction l with
    | nil => simp [sortByExpiresAt]
    | cons x xs ih => exact pairwise_insertByExpiresAt ih
  have hperm : ∀ l : List KeyView, (sortByExpiresAt l).Perm l := by
    intro l
    induction l with
    | nil => exact List.Perm.refl _
    | cons x xs ih =>
      exact (insertByExpiresAt_perm x (sortByExpiresAt xs)).trans (ih.cons x)
  have hstable : ∀ (l : List KeyView) (t : Nat),
      (sortByExpiresAt l).filter (fun v => v.expiresAt == t) =
        l.filter (fun v => v.expiresAt == t) := by
    intro l t
    induction l with
    | nil => rfl
    | cons x xs ih =>
      rw [sortByExpiresAt, filter_insertByExpiresAt, List.filter_cons, ih]
      by_cases hx : x.expiresAt = t
      · simp [hx]
      · simp [hx]
  exact ⟨hsort _, hperm _, fun t => hstable _ t⟩

/-! ### Claim C10 (raw hwid comparison) -/

/-- Claim C10: `isValidHwid` normalizes (trim + lowercase) before testing,
but issuance stores the hwid verbatim and `getKeyByHwid` compares raw
strings, so the same physical fingerprint written in two cases lets two
different owners obtain simultaneous credentials. -/
theorem c10_raw_hwid_comparison_allows_double_issue :
    c10Hwid1 ≠ c10Hwid2 ∧
    (trimChars c10Hwid1.toList).map Char.toLower =
      (trimChars c10Hwid2.toList).map Char.toLower ∧
    isValidHwid c10Hwid1 = true ∧
    isValidHwid c10Hwid2 = true ∧
    (addKey [] "u1" c10Hwid1 0 "K1").1 = Except.ok ("K1", 0 + EXPIRATION_MS) ∧
    (addKey (addKey [] "u1" c10Hwid1 0 "K1").2 "u2" c10Hwid2 0 "K2").1 =
      Except.ok ("K2", 0 + EXPIRATION_MS) :=
  ⟨by decide, by decide, by decide, by decide, rfl, rfl⟩

/-! ### More store helper lemmas -/

theorem getKeyByUserId_eq_none_iff {st : Store} {o : String} :
    getKeyByUserId st o = none ↔ ∀ p ∈ st, p.2.userId ≠ o := by
  unfold getKeyByUserId
  rw [Option.map_eq_none', find?_eq_none_iff]
  simp

theorem getKeyByHwid_eq_none_iff {st : Store} {h : String} :
    getKeyByHwid st h = none ↔ ∀ p ∈ st, p.2.hwid ≠ h := by
  unfold getKeyByHwid
  rw [Option.map_eq_none', find?_eq_none_iff]
  simp

theorem lookupKey_eq_none_iff {st : Store} {k : String} :
    lookupKey st k = none ↔ ∀ p ∈ st, p.1 ≠ k := by
  unfold lookupKey
  rw [Option.map_eq_none', find?_eq_none_iff]
  simp

theorem getKeyByUserId_isSome_of_mem {st : Store} {o : String} {p : String × Entry}
    (hm : p ∈ st) (hu : p.2.userId = o) : (getKeyByUserId st o).isSome = true := by
  unfold getKeyByUserId
  have hf := @find?_isSome_of_mem _ (fun q => q.2.userId == o) _ _ hm (by simp [hu])
  cases hfind : st.find? (fun q => q.2.userId == o) with
  | none => rw [hfind] at hf; simp at hf
  | some q => simp [hfind]

theorem getKeyByHwid_isSome_of_mem {st : Store} {h : String} {p : String × Entry}
    (hm : p ∈ st) (hh : p.2.hwid = h) : (getKeyByHwid st h).isSome = true := by
  unfold getKeyByHwid
  have hf := @find?_isSome_of_mem _ (fun q => q.2.hwid == h) _ _ hm (by simp [hh])
  cases hfind : st.find? (fun q => q.2.hwid == h) with
  | none => rw [hfind] at hf; simp at hf
  | some q => simp [hfind]

theorem objInsert_append_of_fresh {st : Store} {k : String} {e : Entry}
    (hk : lookupKey st k = none) : objInsert st k e = st ++ [(k, e)] := by
  have hany : st.any (fun p => p.1 == k) = false := by
    rw [List.any_eq_false]
    intro p hp
    simp [lookupKey_eq_none_iff.mp hk p hp]
  rw [objInsert, if_neg (by simp [hany])]

/-! ### Claim C6 (Issue failure taxonomy) -/

/-- Claim C6: `addKey` fails with the invalid-hwid error on a malformed
hwid; with a valid hwid it fails with the already-bound error whenever the
requesting owner has a live credential (whatever its hwid); and with a valid
hwid and no credential for the owner it fails with the hwid-in-use error
whenever the hwid belongs to another owner's live credential.  In every
failure case the store is returned unchanged.  (The three kinds are checked
in this order by the source.) -/
theorem c6_addKey_failure_taxonomy :
    (∀ (st : Store) (o h : String) (now : Nat) (k : String),
      isValidHwid h = false →
      addKey st o h now k = (Except.error KeyErr.invalidHwid, st)) ∧
    (∀ (st : Store) (o h : String) (now : Nat) (k : String),
      isValidHwid h = true →
      (∃ p, p ∈ st ∧ p.2.userId = o ∧ now < p.2.expiresAt) →
      addKey st o h now k = (Except.error KeyErr.alreadyBound, st)) ∧
    (∀ (st : Store) (o h : String) (now : Nat) (k : String),
      isValidHwid h = true → getKeyByUserId st o = none →
      (∃ p, p ∈ st ∧ p.2.hwid = h ∧ p.2.userId ≠ o ∧ now < p.2.expiresAt) →
      addKey st o h now k = (Except.error KeyErr.hwidInUse, st)) := by
  refine ⟨?_, ?_, ?_⟩
  · intro st o h now k hv
    simp [addKey, hv]
  · rintro st o h now k hv ⟨p, hm, hu, _⟩
    have hs := getKeyByUserId_isSome_of_mem hm hu
    simp [addKey, hv, hs]
  · rintro st o h now k hv ho ⟨p, hm, hh, _, _⟩
    have hs := getKeyByHwid_isSome_of_mem hm hh
    simp [addKey, hv, ho, hs]

/-- Claim C6, witness: the three failure kinds at concrete inputs. -/
theorem c6_addKey_failure_taxonomy_witness :
    addKey [] "u1" "zzz" 0 "K" = (Except.error KeyErr.invalidHwid, []) ∧
    addKey [("K1", ⟨"u1", hwA, 1000, 0⟩)] "u1" hwB 0 "K2" =
      (Except.error KeyErr.alreadyBound, [("K1", ⟨"u1", hwA, 1000, 0⟩)]) ∧
    addKey [("K1", ⟨"u1", hwA, 1000, 0⟩)] "u2" hwA 0 "K2" =
      (Except.error KeyErr.hwidInUse, [("K1", ⟨"u1", hwA, 1000, 0⟩)]) := by
  refine ⟨?_, ?_, ?_⟩
  · exact c6_addKey_failure_taxonomy.1 [] "u1" "zzz" 0 "K" (by decide)
  · exact c6_addKey_failure_taxonomy.2.1 _ "u1" hwB 0 "K2" (by decide)
      ⟨("K1", ⟨"u1", hwA, 1000, 0⟩), by decide, rfl, by decide⟩
  · exact c6_addKey_failure_taxonomy.2.2 _ "u2" hwA 0 "K2" (by decide) rfl
      ⟨("K1", ⟨"u1", hwA, 1000, 0⟩), by decide, rfl, by decide, by decide⟩

/-! ### Claim C2 (Issue then Lookup) -/

/-- Claim C2: when `addKey(o, h)` succeeds at instant `now`, it returns the
fresh key with expiry `now + EXPIRATION_MS`, and `getKeyData(o)` afterwards
returns the stored credential, whose hwid is `h` and whose `expiresAt` is
`now + EXPIRATION_MS` (`KEY_EXPIRATION_DAYS` in milliseconds). -/
theorem c2_issue_then_lookup (st : Store) (o h : String) (now : Nat) (k : String)
    (hv : isValidHwid h = true) (ho : getKeyByUserId st o = none)
    (hh : getKeyByHwid st h = none) (hk : lookupKey st k = none) :
    (addKey st o h now k).1 = Except.ok (k, now + EXPIRATION_MS) ∧
    getKeyData (addKey st o h now k).2 o =
      some ⟨o, h, now + EXPIRATION_MS, (now : Int)⟩ := by
  have hstore : (addKey st o h now k).2 =
      st ++ [(k, ⟨o, h, now + EXPIRATION_MS, (now : Int)⟩)] := by
    rw [addKey]
    rw [if_neg (by simp [hv]), if_neg (by simp [ho]), if_neg (by simp [hh])]
    exact objInsert_append_of_fresh hk
  refine ⟨?_, ?_⟩
  · rw [addKey, if_neg (by simp [hv]), if_neg (by simp [ho]), if_neg (by simp [hh])]
  · rw [hstore]
    have hfu : st.find? (fun p => p.2.userId == o) = none :=
      Option.map_eq_none'.mp ho
    have hbyUser :
        getKeyByUserId (st ++ [(k, ⟨o, h, now + EXPIRATION_MS, (now : Int)⟩)]) o =
          some k := by
      unfold getKeyByUserId
      rw [find?_append_of_none hfu]
      simp [List.find?_cons_of_pos]
    rw [getKeyData, hbyUser]
    dsimp only
    rw [lookupKey_append_of_none hk]
    simp [lookupKey, List.find?_cons_of_pos]

/-- Claim C2, witness: issuing on the empty store and looking the owner up. -/
theorem c2_issue_then_lookup_witness :
    (addKey [] "u1" hwA 0 "K").1 = Except.ok ("K", 0 + EXPIRATION_MS) ∧
    getKeyData (addKey [] "u1" hwA 0 "K").2 "u1" =
      some ⟨"u1", hwA, 0 + EXPIRATION_MS, (0 : Int)⟩ :=
  c2_issue_then_lookup [] "u1" hwA 0 "K" (by decide) rfl rfl rfl

/-! ### Claim C8 (rebind frame property) -/

theorem lookupKey_setHwidAt_same (st : Store) (k h : String) :
    lookupKey (setHwidAt st k h) k =
      (lookupKey st k).map (fun e => { e with hwid := h }) := by
  induction st with
  | nil => rfl
  | cons p ps ih =>
    by_cases hp : p.1 = k
    · simp [setHwidAt, lookupKey, List.find?_cons_of_pos, hp]
    · rw [setHwidAt, List.map_cons, if_neg (by simp [hp])]
      rw [lookupKey, List.find?_cons_of_neg _ (by simp [hp]),
        show lookupKey (p :: ps) k =
          (ps.find? (fun q => q.1 == k)).map (fun q => q.2) by
            rw [lookupKey, List.find?_cons_of_neg _ (by simp [hp])]]
      exact ih

theorem lookupKey_setHwidAt_ne (st : Store) (k h k' : String) (hne : k' ≠ k) :
    lookupKey (setHwidAt st k h) k' = lookupKey st k' := by
  induction st with
  | nil => rfl
  | cons p ps ih =>
    by_cases hp : p.1 = k
    · have hnk' : ¬ p.1 = k' := by
        rw [hp]
        exact fun hc => hne hc.symm
      rw [setHwidAt, List.map_cons, if_pos (by simp [hp])]
      rw [lookupKey, List.find?_cons_of_neg _ (by simp [hnk']),
        show lookupKey (p :: ps) k' =
          (ps.find? (fun q => q.1 == k')).map (fun q => q.2) by
            rw [lookupKey, List.find?_cons_of_neg _ (by simp [hnk'])]]
      exact ih
    · rw [setHwidAt, List.map_cons, if_neg (by simp [hp])]
      by_cases hp' : p.1 = k'
      · rw [lookupKey, List.find?_cons_of_pos _ (by simp [hp']),
          lookupKey, List.find?_cons_of_pos _ (by simp [hp'])]
      · rw [lookupKey, List.find?_cons_of_neg _ (by simp [hp']),
          show lookupKey (p :: ps) k' =
            (ps.find? (fun q => q.1 == k')).map (fun q => q.2) by
              rw [lookupKey, List.find?_cons_of_neg _ (by simp [hp'])]]
        exact ih

theorem lookupKey_of_mem_nodup {st : Store} (hnd : (st.map Prod.fst).Nodup)
    {k : String} {e : Entry} (hm : (k, e) ∈ st) : lookupKey st k = some e := by
  induction st with
  | nil => simp at hm
  | cons p ps ih =>
    rw [List.map_cons, List.nodup_cons] at hnd
    obtain ⟨hnk, hnd'⟩ := hnd
    rcases List.mem_cons.mp hm with heq | hm'
    · rw [← heq]
      simp [lookupKey, List.find?_cons_of_pos]
    · have hpk : p.1 ≠ k := by
        intro hc
        exact hnk (hc ▸ List.mem_map.mpr ⟨(k, e), hm', rfl⟩)
      rw [lookupKey, List.find?_cons_of_neg _ (by simp [hpk])]
      exact ih hnd' hm'

/-- Claim C8: a successful `updateHwid` changes only the hwid field of the
credential `getKeyByUserId` designates — its key token, `userId`,
`expiresAt` and `createdAt` are unchanged — and every other key maps to an
unchanged credential. -/
theorem c8_rebind_changes_only_hwid (st : MState) (o h : String) (now : Nat)
    (hnd : (st.data.map Prod.fst).Nodup)
    (hok : (updateHwid st o h now).1 = Except.ok ()) :
    ∃ k e, getKeyByUserId st.data o = some k ∧ lookupKey st.data k = some e ∧
      lookupKey (updateHwid st o h now).2.data k =
        some ⟨e.userId, h, e.expiresAt, e.createdAt⟩ ∧
      ∀ k', k' ≠ k → lookupKey (updateHwid st o h now).2.data k' =
        lookupKey st.data k' := by
  cases hv : isValidHwid h with
  | false => rw [updateHwid, if_pos (by simp [hv])] at hok; simp at hok
  | true =>
    rw [updateHwid, if_neg (by simp [hv])] at hok
    cases hg : getKeyByUserId st.data o with
    | none => rw [hg] at hok; simp at hok
    | some k =>
      rw [hg] at hok
      dsimp only at hok
      cases hbh : getKeyByHwid st.data h with
      | some k2 => rw [hbh] at hok; simp at hok
      | none =>
        rw [hbh] at hok
        rw [if_neg (by simp)] at hok
        by_cases hrot : MAX_HWID_CHANGES ≤ (rotationRecent st.hwidChanges o now).length
        · rw [if_pos hrot] at hok; simp at hok
        · have hres : updateHwid st o h now =
              (Except.ok (),
               ⟨setHwidAt st.data k h,
                setChanges st.hwidChanges o (getChanges st.hwidChanges o ++ [now])⟩) := by
            rw [updateHwid, if_neg (by simp [hv]), hg]
            dsimp only
            rw [hbh, if_neg (by simp), if_neg hrot]
          obtain ⟨p, hfind⟩ := Option.map_eq_some'.mp hg
          obtain ⟨hmem, hbeq⟩ := mem_of_find?_some hfind.1
          have hpk : p.1 = k := hfind.2
          have hlk : lookupKey st.data k = some p.2 :=
            lookupKey_of_mem_nodup hnd (by rw [← hpk]; exact hmem)
          refine ⟨k, p.2, rfl, hlk, ?_, ?_⟩
          · rw [hres]
            dsimp only
            rw [lookupKey_setHwidAt_same, hlk]
            rfl
          · intro k' hk'
            rw [hres]
            dsimp only
            rw [lookupKey_setHwidAt_ne st.data k h k' hk']

/-- Claim C8, witness: a concrete successful rebind. -/
theorem c8_rebind_changes_only_hwid_witness :
    ∃ k e, getKeyByUserId oneKeyStore "u" = some k ∧
      lookupKey oneKeyStore k = some e ∧
      lookupKey (updateHwid ⟨oneKeyStore, []⟩ "u" hwB 50).2.data k =
        some ⟨e.userId, hwB, e.expiresAt, e.createdAt⟩ ∧
      ∀ k', k' ≠ k → lookupKey (updateHwid ⟨oneKeyStore, []⟩ "u" hwB 50).2.data k' =
        lookupKey oneKeyStore k' :=
  c8_rebind_changes_only_hwid ⟨oneKeyStore, []⟩ "u" hwB 50 (by decide) rfl

/-! ### Claim C3 (rotation limit) -/

/-- Claim C3, counterexample: with 14 prior rebind timestamps in the window
(14 < `MAX_HWID_CHANGES` = 15), the claim says the rebind is allowed, but
the source appends the current attempt before counting, so the call fails
with the rotation-limit error. -/
theorem c3_rotation_offbyone_counterexample :
    ((getChanges c3Store.hwidChanges "u").filter
      (fun t : Nat => (100 : Int) - (REGEN_WINDOW_MS : Int) < (t : Int))).length = 14 ∧
    14 < MAX_HWID_CHANGES ∧
    isValidHwid hwB = true ∧
    getKeyByHwid c3Store.data hwB = none ∧
    (getKeyByUserId c3Store.data "u").isSome = true ∧
    (updateHwid c3Store "u" hwB 100).1 = Except.error UpdErr.rotationLimit := by
  refine ⟨by decide, by decide, by decide, rfl, rfl, ?_⟩
  rfl

/-- Claim C3 (amended): for an owner with a credential and a valid, unused
new hwid, the rebind succeeds iff the count of recorded timestamps in the
trailing window *including the current attempt* (which the source pushes
before checking) is strictly below `MAX_HWID_CHANGES`; otherwise it fails
with the rotation-limit error.  Timestamps older than the window are
filtered out, so a rebind after the window elapses succeeds. -/
theorem c3_rotation_allowed_iff (st : MState) (o h : String) (now : Nat)
    (hv : isValidHwid h = true) (ho : (getKeyByUserId st.data o).isSome = true)
    (hh : getKeyByHwid st.data h = none) :
    ((updateHwid st o h now).1 = Except.ok () ↔
      ((getChanges st.hwidChanges o).filter
          (fun t : Nat => (now : Int) - (REGEN_WINDOW_MS : Int) < (t : Int))).length + 1 <
        MAX_HWID_CHANGES) ∧
    (MAX_HWID_CHANGES ≤
        ((getChanges st.hwidChanges o).filter
          (fun t : Nat => (now : Int) - (REGEN_WINDOW_MS : Int) < (t : Int))).length + 1 →
      (updateHwid st o h now).1 = Except.error UpdErr.rotationLimit) := by
  obtain ⟨k, hg⟩ := Option.isSome_iff_exists.mp ho
  have hlt : (now : Int) - (REGEN_WINDOW_MS : Int) < ((now : Nat) : Int) := by
    have h0 : (0 : Int) < (REGEN_WINDOW_MS : Int) := by norm_num [REGEN_WINDOW_MS]
    omega
  have hone : (([now] : List Nat).filter
      (fun t : Nat => (now : Int) - (REGEN_WINDOW_MS : Int) < (t : Int))) = [now] := by
    rw [List.filter_cons, if_pos (by simpa using hlt)]
    rfl
  have hsplit : (rotationRecent st.hwidChanges o now).length =
      ((getChanges st.hwidChanges o).filter
        (fun t : Nat => (now : Int) - (REGEN_WINDOW_MS : Int) < (t : Int))).length + 1 := by
    rw [rotationRecent, List.filter_append, List.length_append, hone]
    rfl
  by_cases hrot : MAX_HWID_CHANGES ≤ (rotationRecent st.hwidChanges o now).length
  · have hres : (updateHwid st o h now).1 = Except.error UpdErr.rotationLimit := by
      rw [updateHwid, if_neg (by simp [hv]), hg]
      dsimp only
      rw [hh, if_neg (by simp), if_pos hrot]
    rw [hsplit] at hrot
    rw [hres]
    refine ⟨⟨fun hc => absurd hc (by simp), fun hlt2 => absurd hlt2 (by omega)⟩, ?_⟩
    intro _
    rfl
  · have hres : (updateHwid st o h now).1 = Except.ok () := by
      rw [updateHwid, if_neg (by simp [hv]), hg]
      dsimp only
      rw [hh, if_neg (by simp), if_neg hrot]
    rw [hsplit] at hrot
    rw [hres]
    refine ⟨⟨fun _ => by omega, fun _ => rfl⟩, fun hge => absurd hge hrot⟩

/-- Claim C3, witness: with no prior rebind timestamps the rebind succeeds. -/
theorem c3_rotation_allowed_iff_witness :
    (updateHwid ⟨oneKeyStore, []⟩ "u" hwB 50).1 = Except.ok () :=
  ((c3_rotation_allowed_iff ⟨oneKeyStore, []⟩ "u" hwB 50 (by decide)
    (by decide) rfl).1).mpr (by decide)

/-! ### Claim C5 (Load fallback) -/

theorem loadData_eq_loadBackup {fs : FS} (h : primaryInvalid fs) :
    loadData fs = loadBackup fs := by
  obtain ⟨prim, back⟩ := fs
  rcases h with hnone | ⟨c, hc, hm⟩
  · simp only at hnone
    subst hnone
    rfl
  · simp only at hc
    subst hc
    show (if startsWithList retMarker (trimChars c.toList) = false
        then loadBackup ⟨some c, back⟩
        else (parseStoreContent (trimChars c.toList), (⟨some c, back⟩ : FS))) =
      loadBackup ⟨some c, back⟩
    rw [if_pos hm]

/-- Claim C5 (amended): `loadData` is total (never raises in the model with
successful writes): a marker-valid primary is parsed with no file writes; an
absent/invalid primary falls back to a marker-valid backup, which is parsed
and immediately persisted; when additionally the backup file is *absent* the
table is initialized empty and persisted; but when the backup file exists
with an invalid marker the table is initialized empty *without* persisting. -/
theorem c5_load_fallback (fs : FS) :
    (∀ c, fs.primary = some c →
      startsWithList retMarker (trimChars c.toList) = true →
      loadData fs = (parseStoreContent (trimChars c.toList), fs)) ∧
    (primaryInvalid fs → ∀ b, fs.backup = some b →
      startsWithList retMarker (trimChars b.toList) = true →
      loadData fs = (parseStoreContent (trimChars b.toList),
        saveDataFS (parseStoreContent (trimChars b.toList)))) ∧
    (primaryInvalid fs → fs.backup = none → loadData fs = ([], saveDataFS [])) ∧
    (primaryInvalid fs → ∀ b, fs.backup = some b →
      startsWithList retMarker (trimChars b.toList) = false →
      loadData fs = ([], fs)) := by
  refine ⟨?_, ?_, ?_, ?_⟩
  · intro c hc hm
    obtain ⟨prim, back⟩ := fs
    simp only at hc
    subst hc
    show (if startsWithList retMarker (trimChars c.toList) = false
        then loadBackup ⟨some c, back⟩
        else (parseStoreContent (trimChars c.toList), (⟨some c, back⟩ : FS))) =
      (parseStoreContent (trimChars c.toList), (⟨some c, back⟩ : FS))
    rw [if_neg (by rw [hm]; simp)]
  · intro hp b hb hm
    rw [loadData_eq_loadBackup hp]
    obtain ⟨prim, back⟩ := fs
    simp only at hb
    subst hb
    show (if startsWithList retMarker (trimChars b.toList) = false
        then (([] : Store), (⟨prim, some b⟩ : FS))
        else (parseStoreContent (trimChars b.toList),
          saveDataFS (parseStoreContent (trimChars b.toList)))) =
      (parseStoreContent (trimChars b.toList),
        saveDataFS (parseStoreContent (trimChars b.toList)))
    rw [if_neg (by rw [hm]; simp)]
  · intro hp hb
    rw [loadData_eq_loadBackup hp]
    obtain ⟨prim, back⟩ := fs
    simp only at hb
    subst hb
    rfl
  · intro hp b hb hm
    rw [loadData_eq_loadBackup hp]
    obtain ⟨prim, back⟩ := fs
    simp only at hb
    subst hb
    show (if startsWithList retMarker (trimChars b.toList) = false
        then (([] : Store), (⟨prim, some b⟩ : FS))
        else (parseStoreContent (trimChars b.toList),
          saveDataFS (parseStoreContent (trimChars b.toList)))) =
      (([] : Store), (⟨prim, some b⟩ : FS))
    rw [if_pos hm]

/-- Claim C5, counterexample: with the primary absent and the backup present
but invalid, the claim says the empty table is immediately persisted, but
`loadBackup`'s invalid-format branch returns without saving: the files are
unchanged and the primary remains absent. -/
theorem c5_both_invalid_no_persist_counterexample :
    loadData c5FS = ([], c5FS) ∧ (loadData c5FS).2.primary = none ∧
    (loadData c5FS).2.primary ≠ some (String.mk (encodeStore [])) := by
  refine ⟨rfl, rfl, by decide⟩

/-- Claim C5, witness: the absent-backup branch does persist the empty
table. -/
theorem c5_load_fallback_witness :
    loadData ⟨none, none⟩ = ([], saveDataFS []) :=
  (c5_load_fallback ⟨none, none⟩).2.2.1 (Or.inl rfl) rfl

/-! ### Claim C1 (uniqueness invariant preservation) -/

/-- Claim C1, counterexample: from the reachable empty store, one
`importFromLua` produces two distinct live credentials for the same owner
(and the same hwid): the import only checks token uniqueness, so it does not
preserve the invariant. -/
theorem c1_importFromLua_breaks_uniqueness :
    Reachable ⟨[], []⟩ ∧ invC1 ([] : Store) ∧
    ¬ invC1 (importFromLua ([] : Store) c1BadImport).1 := by
  refine ⟨Reachable.init, invC1_nil, fun hinv => ?_⟩
  have hres : (importFromLua ([] : Store) c1BadImport).1 =
      [("A", ⟨"u", "h1", 999, (-86399001 : Int)⟩),
       ("B", ⟨"u", "h1", 999, (-86399001 : Int)⟩)] := by decide
  rw [hres] at hinv
  have := hinv ("A", ⟨"u", "h1", 999, (-86399001 : Int)⟩) (by simp)
    ("B", ⟨"u", "h1", 999, (-86399001 : Int)⟩) (by simp)
    0 (by decide) (by decide) (Or.inl rfl)
  simp at this

/-- Claim C1 (amended): `addKey` (with its fresh generated key),
`updateHwid`, `removeKey` and `cleanExpiredKeys` each preserve the
at-most-one-live-credential-per-owner/per-hwid invariant; `importFromLua`
does not (it guarantees only token uniqueness). -/
theorem c1_core_ops_preserve_uniqueness :
    (∀ (st : Store) (o h : String) (now : Nat) (k : String),
      lookupKey st k = none → invC1 st → invC1 (addKey st o h now k).2) ∧
    (∀ (st : MState) (o h : String) (now : Nat),
      invC1 st.data → invC1 (updateHwid st o h now).2.data) ∧
    (∀ (st : Store) (o : String), invC1 st → invC1 (removeKey st o).2) ∧
    (∀ (st : Store) (now : Nat), invC1 st → invC1 (cleanExpiredKeys st now).1) := by
  refine ⟨?_, ?_, ?_, ?_⟩
  · intro st o h now k hk hi
    cases hv : isValidHwid h with
    | false =>
      rw [addKey, if_pos (by simp [hv])]
      exact hi
    | true =>
      cases hu : getKeyByUserId st o with
      | some k1 =>
        rw [addKey, if_neg (by simp [hv]), if_pos (by simp [hu])]
        exact hi
      | none =>
        cases hw : getKeyByHwid st h with
        | some k2 =>
          rw [addKey, if_neg (by simp [hv]), if_neg (by simp [hu]),
            if_pos (by simp [hw])]
          exact hi
        | none =>
          rw [addKey, if_neg (by simp [hv]), if_neg (by simp [hu]),
            if_neg (by simp [hw])]
          dsimp only
          rw [objInsert_append_of_fresh hk]
          have huser : ∀ p ∈ st, p.2.userId ≠ o := getKeyByUserId_eq_none_iff.mp hu
          have hhwid : ∀ p ∈ st, p.2.hwid ≠ h := getKeyByHwid_eq_none_iff.mp hw
          intro p1 h1 p2 h2 now' l1 l2 hor
          rcases List.mem_append.mp h1 with h1s | h1n
          · rcases List.mem_append.mp h2 with h2s | h2n
            · exact hi p1 h1s p2 h2s now' l1 l2 hor
            · rw [List.mem_singleton] at h2n
              subst h2n
              rcases hor with hu2 | hh2
              · exact absurd hu2 (huser p1 h1s)
              · exact absurd hh2 (hhwid p1 h1s)
          · rw [List.mem_singleton] at h1n
            subst h1n
            rcases List.mem_append.mp h2 with h2s | h2n
            · rcases hor with hu2 | hh2
              · exact absurd hu2.symm (huser p2 h2s)
              · exact absurd hh2.symm (hhwid p2 h2s)
            · rw [List.mem_singleton] at h2n
              subst h2n
              rfl
  · intro st o h now hi
    cases hv : isValidHwid h with
    | false =>
      rw [updateHwid, if_pos (by simp [hv])]
      exact hi
    | true =>
      rw [updateHwid, if_neg (by simp [hv])]
      cases hg : getKeyByUserId st.data o with
      | none => exact hi
      | some k =>
        dsimp only
        cases hbh : getKeyByHwid st.data h with
        | some k2 =>
          rw [if_pos (by simp)]
          exact hi
        | none =>
          rw [if_neg (by simp)]
          by_cases hrot : MAX_HWID_CHANGES ≤ (rotationRecent st.hwidChanges o now).length
          · rw [if_pos hrot]
            exact hi
          · rw [if_neg hrot]
            dsimp only
            have hnoh : ∀ p ∈ st.data, p.2.hwid ≠ h := getKeyByHwid_eq_none_iff.mp hbh
            intro p1 h1 p2 h2 now' l1 l2 hor
            obtain ⟨q1, hq1, hfq1⟩ := List.mem_map.mp h1
            obtain ⟨q2, hq2, hfq2⟩ := List.mem_map.mp h2
            have hkey1 : p1.1 = q1.1 := by
              rw [← hfq1]
              by_cases hc : q1.1 = k <;> simp [hc]
            have hkey2 : p2.1 = q2.1 := by
              rw [← hfq2]
              by_cases hc : q2.1 = k <;> simp [hc]
            have huid1 : p1.2.userId = q1.2.userId := by
              rw [← hfq1]
              by_cases hc : q1.1 = k <;> simp [hc]
            have huid2 : p2.2.userId = q2.2.userId := by
              rw [← hfq2]
              by_cases hc : q2.1 = k <;> simp [hc]
            have hexp1 : p1.2.expiresAt = q1.2.expiresAt := by
              rw [← hfq1]
              by_cases hc : q1.1 = k <;> simp [hc]
            have hexp2 : p2.2.expiresAt = q2.2.expiresAt := by
              rw [← hfq2]
              by_cases hc : q2.1 = k <;> simp [hc]
            rw [hkey1, hkey2]
            rw [hexp1] at l1
            rw [hexp2] at l2
            rcases hor with huu | hhh
            · exact hi q1 hq1 q2 hq2 now' l1 l2 (Or.inl (huid1 ▸ huid2 ▸ huu))
            · by_cases hc1 : q1.1 = k
              · by_cases hc2 : q2.1 = k
                · rw [hc1, hc2]
                · have hp1h : p1.2.hwid = h := by
                    rw [← hfq1]
                    simp [hc1]
                  have hp2h : p2.2.hwid = q2.2.hwid := by
                    rw [← hfq2]
                    simp [hc2]
                  exact absurd (by rw [← hp2h, ← hhh, hp1h]) (hnoh q2 hq2)
              · by_cases hc2 : q2.1 = k
                · have hp2h : p2.2.hwid = h := by
                    rw [← hfq2]
                    simp [hc2]
                  have hp1h : p1.2.hwid = q1.2.hwid := by
                    rw [← hfq1]
                    simp [hc1]
                  exact absurd (by rw [← hp1h, hhh, hp2h]) (hnoh q1 hq1)
                · have hp1h : p1.2.hwid = q1.2.hwid := by
                    rw [← hfq1]
                    simp [hc1]
                  have hp2h : p2.2.hwid = q2.2.hwid := by
                    rw [← hfq2]
                    simp [hc2]
                  exact hi q1 hq1 q2 hq2 now' l1 l2
                    (Or.inr (by rw [← hp1h, ← hp2h]; exact hhh))
  · intro st o hi
    cases hg : getKeyByUserId st o with
    | none =>
      rw [removeKey, hg]
      exact hi
    | some k =>
      rw [removeKey, hg]
      exact invC1_of_subset (fun p hp => (List.mem_filter.mp hp).1) hi
  · intro st now hi
    exact invC1_of_subset (fun p hp => (List.mem_filter.mp hp).1) hi

/-! ### Claim C4 (codec round trip): digit lemmas -/

theorem isDigitChar_digit (d : Nat) (hd : d < 10) :
    isDigitChar (Char.ofNat (48 + d)) = true := by
  interval_cases d <;> decide

theorem toNat_digit (d : Nat) (hd : d < 10) :
    (Char.ofNat (48 + d)).toNat - 48 = d := by
  interval_cases d <;> decide

theorem natToDigitsAux_acc (fuel : Nat) :
    ∀ (n : Nat) (acc : List Char),
      natToDigitsAux fuel n acc = natToDigitsAux fuel n [] ++ acc := by
  induction fuel with
  | zero => intro n acc; rfl
  | succ f ih =>
    intro n acc
    by_cases h : n < 10
    · simp [natToDigitsAux, h]
    · rw [natToDigitsAux, if_neg h, natToDigitsAux, if_neg h,
        ih (n / 10) (Char.ofNat (48 + n % 10) :: acc),
        ih (n / 10) (Char.ofNat (48 + n % 10) :: [])]
      simp

theorem natToDigits_all_digit :
    ∀ (n fuel : Nat), n ≤ fuel → ∀ c ∈ natToDigitsAux fuel n [],
      isDigitChar c = true := by
  intro n
  induction n using Nat.strong_induction_on with
  | _ n ih =>
    intro fuel hf c hc
    cases fuel with
    | zero =>
      rw [natToDigitsAux, List.mem_singleton] at hc
      subst hc
      exact isDigitChar_digit _ (Nat.mod_lt _ (by omega))
    | succ f =>
      by_cases h : n < 10
      · rw [natToDigitsAux, if_pos h, List.mem_singleton] at hc
        subst hc
        exact isDigitChar_digit _ h
      · rw [natToDigitsAux, if_neg h, natToDigitsAux_acc] at hc
        rcases List.mem_append.mp hc with hc1 | hc2
        · have hdiv : n / 10 < n := Nat.div_lt_self (by omega) (by omega)
          exact ih (n / 10) hdiv f (by omega) c hc1
        · rw [List.mem_singleton] at hc2
          subst hc2
          exact isDigitChar_digit _ (Nat.mod_lt _ (by omega))

theorem natToDigitsAux_ne_nil (fuel n : Nat) : natToDigitsAux fuel n [] ≠ [] := by
  cases fuel with
  | zero => simp [natToDigitsAux]
  | succ f =>
    by_cases h : n < 10
    · simp [natToDigitsAux, h]
    · rw [natToDigitsAux, if_neg h, natToDigitsAux_acc]
      simp

theorem natToDigitsAux_val :
    ∀ (n fuel a : Nat), n ≤ fuel →
      (natToDigitsAux fuel n []).foldl (fun acc c => acc * 10 + (c.toNat - 48)) a =
        a * 10 ^ (natToDigitsAux fuel n []).length + n := by
  intro n
  induction n using Nat.strong_induction_on with
  | _ n ih =>
    intro fuel a hf
    cases fuel with
    | zero =>
      have hn : n = 0 := by omega
      subst hn
      simp [natToDigitsAux, toNat_digit 0 (by omega)]
    | succ f =>
      by_cases h : n < 10
      · rw [natToDigitsAux, if_pos h]
        simp [toNat_digit n h]
      · rw [natToDigitsAux, if_neg h, natToDigitsAux_acc]
        have hdiv : n / 10 < n := Nat.div_lt_self (by omega) (by omega)
        rw [List.foldl_append,
          ih (n / 10) hdiv f a (by omega)]
        simp only [List.foldl_cons, List.foldl_nil, List.length_append,
          List.length_cons, List.length_nil]
        rw [toNat_digit (n % 10) (Nat.mod_lt _ (by omega))]
        generalize (natToDigitsAux f (n / 10) []).length = L
        have hdm : n / 10 * 10 + n % 10 = n := by omega
        have key : (a * 10 ^ L + n / 10) * 10 + n % 10 =
            a * 10 ^ (L + (0 + 1)) + (n / 10 * 10 + n % 10) := by
          rw [pow_succ]
          ring
        rw [key, hdm]

theorem natToDigits_ne_nil (n : Nat) : natToDigits n ≠ [] :=
  natToDigitsAux_ne_nil n n

theorem natToDigits_digits (n : Nat) :
    ∀ c ∈ natToDigits n, isDigitChar c = true :=
  natToDigits_all_digit n n le_rfl

theorem digitsToNat_natToDigits (n : Nat) : digitsToNat (natToDigits n) = n := by
  have h := natToDigitsAux_val n n 0 le_rfl
  simpa [digitsToNat, natToDigits] using h

/-! ### Claim C4: parser-combinator run lemmas -/

theorem takeWhile_append_stop {p : Char → Bool} {l : List Char} {c : Char}
    {rest : List Char} (hl : ∀ x ∈ l, p x = true) (hc : p c = false) :
    (l ++ c :: rest).takeWhile p = l ∧ (l ++ c :: rest).dropWhile p = c :: rest := by
  induction l with
  | nil => simp [List.takeWhile_cons, List.dropWhile_cons, hc]
  | cons a l ih =>
    have ha : p a = true := hl a (List.mem_cons_self a l)
    have hrest := ih (fun x hx => hl x (List.mem_cons_of_mem a hx))
    simp [List.takeWhile_cons, List.dropWhile_cons, ha, hrest.1, hrest.2]

theorem parseDigits_run (n : Nat) (rest : List Char) :
    parseDigits (natToDigits n ++ '\n' :: rest) = some (n, '\n' :: rest) := by
  obtain ⟨ht, hd⟩ := @takeWhile_append_stop isDigitChar (natToDigits n) '\n' rest
    (natToDigits_digits n) (by decide)
  cases hsh : natToDigits n with
  | nil => exact absurd hsh (natToDigits_ne_nil n)
  | cons d ds =>
    rw [hsh] at ht hd
    rw [parseDigits, ht, hd]
    have hval : digitsToNat (d :: ds) = n := by
      rw [← hsh]
      exact digitsToNat_natToDigits n
    dsimp only
    rw [hval]

theorem expectStr_append (pat rest : List Char) :
    expectStr pat (pat ++ rest) = some rest := by
  induction pat with
  | nil => rfl
  | cons p ps ih => simp [expectStr, ih]

theorem expectStr_cons_ne {p c : Char} (ps cs : List Char) (h : c ≠ p) :
    expectStr (p :: ps) (c :: cs) = none := by
  simp [expectStr, h]

/-- `Option` bind on a `some`, in the form `do`-notation produces. -/
theorem bindSome {α β : Type} (a : α) (f : α → Option β) :
    (do
      let x ← some a
      f x : Option β) = f a := rfl

theorem skipWs_userId (X : List Char) :
    skipWs ('\n' :: (spaces8 ++ (litUserId ++ X))) = litUserId ++ X := by
  simp [skipWs, spaces8, spaces4, litUserId, wsChar]

theorem skipWs_hwid (X : List Char) :
    skipWs ('\n' :: (spaces8 ++ (litHwid ++ X))) = litHwid ++ X := by
  simp [skipWs, spaces8, spaces4, litHwid, wsChar]

theorem skipWs_expires (X : List Char) :
    skipWs ('\n' :: (spaces8 ++ (litExpires ++ X))) = litExpires ++ X := by
  simp [skipWs, spaces8, spaces4, litExpires, wsChar]

theorem skipWs_rbrace (X : List Char) :
    skipWs ('\n' :: (spaces4 ++ (litRBrace ++ X))) = litRBrace ++ X := by
  simp [skipWs, spaces4, litRBrace, wsChar]

theorem lazyCapture_run {α : Type} (stop : List Char → Option α)
    (hstop0 : ∀ (c : Char) (cs : List Char), c ≠ '"' → stop (c :: cs) = none)
    (cap : List Char) :
    ∀ (tail : List Char) (a : α),
      (∀ c ∈ cap, c ≠ '"' ∧ dotChar c = true) →
      stop tail = some a →
      lazyCapture stop (cap ++ tail) = some (cap, a) := by
  induction cap with
  | nil =>
    intro tail a _ hstop
    cases tail with
    | nil => rw [List.nil_append, lazyCapture, hstop]; rfl
    | cons c cs => rw [List.nil_append, lazyCapture, hstop]
  | cons c cap' ih =>
    intro tail a hcap hstop
    have hc := hcap c (List.mem_cons_self c cap')
    rw [List.cons_append, lazyCapture, hstop0 c (cap' ++ tail) hc.1]
    dsimp only
    rw [if_pos (by simp [hc.2]), ih tail a
      (fun x hx => hcap x (List.mem_cons_of_mem c hx)) hstop]
    rfl

theorem afterHwid_head_ne (c : Char) (cs : List Char) (h : c ≠ '"') :
    afterHwid (c :: cs) = none := by
  rw [afterHwid]
  simp only [litComma]
  rw [expectStr_cons_ne _ _ h]
  rfl

theorem afterUserId_head_ne (c : Char) (cs : List Char) (h : c ≠ '"') :
    afterUserId (c :: cs) = none := by
  rw [afterUserId]
  simp only [litComma]
  rw [expectStr_cons_ne _ _ h]
  rfl

theorem afterKey_head_ne (c : Char) (cs : List Char) (h : c ≠ '"') :
    afterKey (c :: cs) = none := by
  rw [afterKey]
  simp only [litKeyClose]
  rw [expectStr_cons_ne _ _ h]
  rfl

theorem afterHwid_run (n : Nat) (rest : List Char) :
    afterHwid (litComma ++ ('\n' :: (spaces8 ++ (litExpires ++ (natToDigits n ++ ('\n' :: (spaces4 ++ (litRBrace ++ (rest))))))))) =
    some (n, rest) := by
  rw [afterHwid, expectStr_append]
  simp only [bindSome]
  rw [skipWs_expires, expectStr_append]
  simp only [bindSome]
  rw [parseDigits_run n (spaces4 ++ (litRBrace ++ rest))]
  simp only [bindSome]
  rw [skipWs_rbrace, expectStr_append]
  rfl

theorem afterUserId_run (h : List Char) (n : Nat) (rest : List Char)
    (hgood : ∀ c ∈ h, c ≠ '"' ∧ dotChar c = true) :
    afterUserId (litComma ++ ('\n' :: (spaces8 ++ (litHwid ++ (h ++ (litComma ++ ('\n' :: (spaces8 ++ (litExpires ++ (natToDigits n ++ ('\n' :: (spaces4 ++ (litRBrace ++ (rest)))))))))))))) =
    some ((h, n), rest) := by
  rw [afterUserId, expectStr_append]
  simp only [bindSome]
  rw [skipWs_hwid, expectStr_append]
  simp only [bindSome]
  rw [lazyCapture_run afterHwid afterHwid_head_ne h _ (n, rest) hgood
    (afterHwid_run n rest)]
  rfl

theorem afterKey_run (u h : List Char) (n : Nat) (rest : List Char)
    (hu : ∀ c ∈ u, c ≠ '"' ∧ dotChar c = true)
    (hh : ∀ c ∈ h, c ≠ '"' ∧ dotChar c = true) :
    afterKey (litKeyClose ++ ('\n' :: (spaces8 ++ (litUserId ++ (u ++ (litComma ++ ('\n' :: (spaces8 ++ (litHwid ++ (h ++ (litComma ++ ('\n' :: (spaces8 ++ (litExpires ++ (natToDigits n ++ ('\n' :: (spaces4 ++ (litRBrace ++ (rest))))))))))))))))))) =
    some ((u, h, n), rest) := by
  rw [afterKey, expectStr_append]
  simp only [bindSome]
  rw [skipWs_userId, expectStr_append]
  simp only [bindSome]
  rw [lazyCapture_run afterUserId afterUserId_head_ne u _ ((h, n), rest) hu
    (afterUserId_run h n rest hh)]
  rfl

theorem matchRecordAt_run (k u h : List Char) (n : Nat) (rest : List Char)
    (hk : ∀ c ∈ k, c ≠ '"' ∧ dotChar c = true)
    (hu : ∀ c ∈ u, c ≠ '"' ∧ dotChar c = true)
    (hh : ∀ c ∈ h, c ≠ '"' ∧ dotChar c = true) :
    matchRecordAt (litOpen ++ (k ++ (litKeyClose ++ ('\n' :: (spaces8 ++ (litUserId ++ (u ++ (litComma ++ ('\n' :: (spaces8 ++ (litHwid ++ (h ++ (litComma ++ ('\n' :: (spaces8 ++ (litExpires ++ (natToDigits n ++ ('\n' :: (spaces4 ++ (litRBrace ++ (rest))))))))))))))))))))) =
    some (⟨k, u, h, n⟩, rest) := by
  rw [matchRecordAt, expectStr_append]
  simp only [bindSome]
  rw [lazyCapture_run afterKey afterKey_head_ne k _ ((u, h, n), rest) hk
    (afterKey_run u h n rest hu hh)]
  rfl

/-! ### Claim C4: scanning the encoded body -/

theorem matchRecordAt_nil : matchRecordAt [] = none := rfl

theorem matchRecordAt_head_ne (c : Char) (cs : List Char) (h : c ≠ '[') :
    matchRecordAt (c :: cs) = none := by
  rw [matchRecordAt]
  simp only [litOpen]
  rw [expectStr_cons_ne _ _ h]
  rfl

theorem findRecords_nil (fuel : Nat) : findRecords fuel [] = [] := by
  cases fuel <;> rfl

theorem findRecords_skip_cons (f : Nat) (c : Char) (cs : List Char)
    (h : c ≠ '[') : findRecords (f + 1) (c :: cs) = findRecords f cs := by
  simp only [findRecords]
  rw [matchRecordAt_head_ne c cs h]

theorem findRecords_match (f : Nat) (s : List Char) (r : RawRec)
    (rest : List Char) (h : matchRecordAt s = some (r, rest)) :
    findRecords (f + 1) s = r :: findRecords f rest := by
  simp only [findRecords]
  rw [h]

theorem findRecords_skip (pre : List Char) :
    ∀ (rest : List Char) (fuel : Nat), (∀ c ∈ pre, c ≠ '[') →
      pre.length ≤ fuel →
      findRecords fuel (pre ++ rest) = findRecords (fuel - pre.length) rest := by
  induction pre with
  | nil => intro rest fuel _ _; simp
  | cons c pre' ih =>
    intro rest fuel hc hlen
    cases fuel with
    | zero => simp at hlen
    | succ f =>
      rw [List.cons_append,
        findRecords_skip_cons f _ _ (hc c (List.mem_cons_self _ _)),
        ih rest f (fun x hx => hc x (List.mem_cons_of_mem c hx)) (by simpa using hlen),
        List.length_cons, Nat.succ_sub_succ]

theorem goodField_chars {s : String} (h : goodField s) :
    ∀ c ∈ s.toList, c ≠ '"' ∧ dotChar c = true := by
  intro c hc
  obtain ⟨h1, h2, h3, h4, h5⟩ := h c hc
  refine ⟨h1, ?_⟩
  simp [dotChar, h2, h3, h4, h5]

theorem encodeEntry_length (k : String) (e : Entry) :
    81 ≤ (encodeEntry k e).length := by
  simp [encodeEntry, spaces4, spaces8, litOpen, litKeyClose, litUserId,
    litComma, litHwid, litExpires, litRBrace]
  omega

theorem findRecords_body (T : Store) :
    ∀ fuel : Nat, goodStore T → (encodeBody T).length + 1 ≤ fuel →
      findRecords fuel (encodeBody T ++ '\x7d' :: []) = T.map rawOf := by
  induction T with
  | nil =>
    intro fuel _ hf
    rw [show encodeBody [] = [] from rfl] at hf ⊢
    rw [List.nil_append]
    cases fuel with
    | zero => simp at hf
    | succ f =>
      rw [findRecords_skip_cons f _ _ (by decide), findRecords_nil]
      rfl
  | cons p T' ih =>
    intro fuel hgood hf
    obtain ⟨k, e⟩ := p
    have hg := hgood (k, e) (List.mem_cons_self _ _)
    have hgood' : goodStore T' := fun q hq => hgood q (List.mem_cons_of_mem _ hq)
    have hlen_entry : 81 ≤ (encodeEntry k e).length := encodeEntry_length k e
    have hftot : (encodeEntry k e).length + (encodeBody T').length + 1 ≤ fuel := by
      rw [show encodeBody ((k, e) :: T') = encodeEntry k e ++ encodeBody T' from rfl,
        List.length_append] at hf
      omega
    have hshape : encodeBody ((k, e) :: T') ++ '\x7d' :: [] =
        spaces4 ++ (litOpen ++ (k.toList ++ (litKeyClose ++ ('\n' :: (spaces8 ++ (litUserId ++ (e.userId.toList ++ (litComma ++ ('\n' :: (spaces8 ++ (litHwid ++ (e.hwid.toList ++ (litComma ++ ('\n' :: (spaces8 ++ (litExpires ++ (natToDigits e.expiresAt ++ ('\n' :: (spaces4 ++ (litRBrace ++ (',' :: ('\n' :: (encodeBody T' ++ '\x7d' :: []))))))))))))))))))))))) := by
      rw [show encodeBody ((k, e) :: T') = encodeEntry k e ++ encodeBody T' from rfl,
        encodeEntry]
      simp only [List.append_assoc, List.cons_append, List.nil_append]
    rw [hshape]
    rw [findRecords_skip spaces4 _ fuel (by decide) (by
      rw [show spaces4.length = 4 from rfl]
      omega)]
    rw [show spaces4.length = 4 from rfl]
    obtain ⟨f, hfeq⟩ : (∃ f, fuel - 4 = f + 1) := ⟨fuel - 5, by omega⟩
    rw [hfeq]
    rw [findRecords_match f _ _ _
      (matchRecordAt_run k.toList e.userId.toList e.hwid.toList e.expiresAt
        (',' :: ('\n' :: (encodeBody T' ++ '\x7d' :: [])))
        (goodField_chars hg.1) (goodField_chars hg.2.1)
        (goodField_chars hg.2.2))]
    obtain ⟨g, hgeq⟩ : (∃ g, f = g + 1 + 1) := ⟨f - 2, by omega⟩
    rw [hgeq]
    rw [findRecords_skip_cons (g + 1) ',' _ (by decide),
      findRecords_skip_cons g '\n' _ (by decide)]
    rw [ih g hgood' (by omega)]
    rfl

/-! ### Claim C4: trim of the encoded file -/

theorem dropWhile_cons_of_neg {p : Char → Bool} {c : Char} {l : List Char}
    (h : p c = false) : (c :: l).dropWhile p = c :: l := by
  simp [List.dropWhile_cons, h]

theorem dropWhile_cons_of_pos {p : Char → Bool} {c : Char} {l : List Char}
    (h : p c = true) : (c :: l).dropWhile p = l.dropWhile p := by
  simp [List.dropWhile_cons, h]

theorem trimChars_shape (A : List Char) (a z : Char) (ha : wsChar a = false)
    (hz : wsChar z = false) :
    trimChars ((a :: A) ++ z :: '\n' :: []) = (a :: A) ++ z :: [] := by
  rw [trimChars]
  rw [show (a :: A) ++ z :: '\n' :: [] = a :: (A ++ z :: '\n' :: []) from rfl]
  rw [dropWhile_cons_of_neg ha]
  rw [show a :: (A ++ z :: '\n' :: []) = ((a :: A) ++ z :: []) ++ '\n' :: [] from by
    simp]
  rw [List.reverse_append,
    show ('\n' :: ([] : List Char)).reverse = '\n' :: [] from rfl,
    List.cons_append, List.nil_append, dropWhile_cons_of_pos (by decide),
    List.reverse_append,
    show (z :: ([] : List Char)).reverse = z :: [] from rfl,
    List.cons_append, List.nil_append, dropWhile_cons_of_neg hz,
    List.reverse_cons, List.reverse_reverse]

theorem trimChars_encodeStore (T : Store) :
    trimChars (encodeStore T) =
      retMarker ++ ('\n' :: (encodeBody T ++ '\x7d' :: [])) := by
  have hform : encodeStore T =
      ('r' :: ('e' :: 't' :: 'u' :: 'r' :: 'n' :: ' ' :: '\x7b' :: '\n' :: [] ++
        encodeBody T)) ++ '\x7d' :: '\n' :: [] := by
    rw [encodeStore, retMarker]
    simp
  rw [hform, trimChars_shape _ 'r' '\x7d' (by decide) (by decide), retMarker]
  simp

/-! ### Claim C4: building the table from the matches -/

theorem parseRecords_encode (T : Store) (hgood : goodStore T) :
    parseRecords (trimChars (encodeStore T)) = T.map rawOf := by
  rw [trimChars_encodeStore, parseRecords]
  rw [show retMarker ++ ('\n' :: (encodeBody T ++ '\x7d' :: [])) =
      (retMarker ++ '\n' :: []) ++ (encodeBody T ++ '\x7d' :: []) from by simp]
  rw [findRecords_skip (retMarker ++ '\n' :: []) _ _ (by decide) (by
    simp only [List.length_append]
    omega)]
  rw [List.length_append, show (retMarker ++ '\n' :: []).length = 9 from rfl,
    Nat.add_sub_cancel_left]
  exact findRecords_body T _ hgood (by rw [List.length_append]; rfl)

theorem buildStore_go (T : Store) :
    ∀ acc : Store, (T.map Prod.fst).Nodup →
      (∀ p ∈ T, p.1.toList.length ≤ MAX_KEY_LENGTH) →
      (∀ p ∈ T, ∀ q ∈ acc, q.1 ≠ p.1) →
      (T.map rawOf).foldl
        (fun st r =>
          if MAX_KEY_LENGTH < r.key.length then st
          else objInsert st (String.mk r.key) (recEntry r)) acc =
      acc ++ T.map (fun p => (p.1, decodeEntryOf p.2)) := by
  induction T with
  | nil => intro acc _ _ _; simp
  | cons p T' ih =>
    intro acc hnd hlen hdisj
    obtain ⟨k, e⟩ := p
    rw [List.map_cons, List.foldl_cons]
    have hk : k.toList.length ≤ MAX_KEY_LENGTH :=
      hlen (k, e) (List.mem_cons_self _ _)
    have hfresh : lookupKey acc k = none :=
      lookupKey_eq_none_iff.mpr
        (fun q hq => hdisj (k, e) (List.mem_cons_self _ _) q hq)
    have hstep : (if MAX_KEY_LENGTH < (rawOf (k, e)).key.length then acc
        else objInsert acc (String.mk (rawOf (k, e)).key) (recEntry (rawOf (k, e)))) =
        acc ++ [(k, decodeEntryOf e)] := by
      rw [if_neg (by simp only [rawOf]; omega),
        show String.mk (rawOf (k, e)).key = k from rfl,
        show recEntry (rawOf (k, e)) = decodeEntryOf e from rfl]
      exact objInsert_append_of_fresh hfresh
    rw [hstep]
    rw [List.map_cons, List.nodup_cons] at hnd
    have hknotin : k ∉ T'.map Prod.fst := hnd.1
    rw [ih (acc ++ [(k, decodeEntryOf e)]) hnd.2
      (fun q hq => hlen q (List.mem_cons_of_mem _ hq))
      (fun q hq r hr => by
        rcases List.mem_append.mp hr with hra | hrk
        · exact hdisj q (List.mem_cons_of_mem _ hq) r hra
        · rw [List.mem_singleton] at hrk
          subst hrk
          intro hc
          apply hknotin
          rw [show ((k, decodeEntryOf e).1 : String) = k from rfl] at hc
          rw [hc]
          exact List.mem_map.mpr ⟨q, hq, rfl⟩)]
    simp

theorem parseStoreContent_encode (T : Store)
    (hnd : (T.map Prod.fst).Nodup)
    (hlen : ∀ p ∈ T, p.1.toList.length ≤ MAX_KEY_LENGTH)
    (hgood : goodStore T) :
    parseStoreContent (trimChars (encodeStore T)) =
      T.map (fun p => (p.1, decodeEntryOf p.2)) := by
  rw [parseStoreContent, parseRecords_encode T hgood]
  have h := buildStore_go T [] hnd hlen (by simp)
  simpa [buildStore] using h

theorem lookupKey_map_snd (T : Store) (g : Entry → Entry) (k : String) :
    lookupKey (T.map (fun p => (p.1, g p.2))) k = (lookupKey T k).map g := by
  induction T with
  | nil => rfl
  | cons p ps ih =>
    by_cases hp : p.1 = k
    · simp [lookupKey, List.find?_cons_of_pos, hp]
    · rw [List.map_cons]
      rw [lookupKey, List.find?_cons_of_neg _ (by simp [hp]),
        show lookupKey (p :: ps) k =
          (ps.find? (fun q => q.1 == k)).map (fun q => q.2) by
            rw [lookupKey, List.find?_cons_of_neg _ (by simp [hp])]]
      exact ih

/-- Claim C4, counterexample: this table satisfies the claim's conditions
(distinct keys within `MAX_KEY_LENGTH`, no embedded double quotes in any
field), yet decoding its encoding loses the record, because the regex `.`
cannot match the newline inside the key: the decoded table is empty. -/
theorem c4_roundtrip_newline_counterexample :
    (∀ p ∈ c4BadStore, ∀ c ∈ p.1.toList, c ≠ '"') ∧
    (∀ p ∈ c4BadStore, ∀ c ∈ p.2.userId.toList, c ≠ '"') ∧
    (∀ p ∈ c4BadStore, ∀ c ∈ p.2.hwid.toList, c ≠ '"') ∧
    (c4BadStore.map Prod.fst).Nodup ∧
    (∀ p ∈ c4BadStore, p.1.toList.length ≤ MAX_KEY_LENGTH) ∧
    parseStoreContent (trimChars (encodeStore c4BadStore)) = [] ∧
    c4BadStore ≠ [] := by decide

/-- Claim C4 (amended): for every table with distinct keys within
`MAX_KEY_LENGTH` whose keys and fields contain no embedded double quote
*and no ECMAScript line terminator (LF, CR, U+2028, U+2029)*, decoding the
`saveData` encoding through the
`loadData` regex parse returns the table: the decoded table is the original
with each `createdAt` re-derived from `expiresAt`, so it has the same key
sequence and the same `userId`, `hwid` and `expiresAt` per key. -/
theorem c4_roundtrip (T : Store)
    (hnd : (T.map Prod.fst).Nodup)
    (hlen : ∀ p ∈ T, p.1.toList.length ≤ MAX_KEY_LENGTH)
    (hgood : goodStore T) :
    parseStoreContent (trimChars (encodeStore T)) =
      T.map (fun p => (p.1, decodeEntryOf p.2)) ∧
    (parseStoreContent (trimChars (encodeStore T))).map Prod.fst =
      T.map Prod.fst ∧
    ∀ k : String,
      (lookupKey (parseStoreContent (trimChars (encodeStore T))) k).map
          (fun e => (e.userId, e.hwid, e.expiresAt)) =
        (lookupKey T k).map (fun e => (e.userId, e.hwid, e.expiresAt)) := by
  have hmain := parseStoreContent_encode T hnd hlen hgood
  refine ⟨hmain, ?_, ?_⟩
  · rw [hmain, List.map_map]
    rfl
  · intro k
    rw [hmain, lookupKey_map_snd, Option.map_map]
    cases lookupKey T k <;> rfl

/-- Claim C4, witness: the round trip on a concrete two-entry table. -/
theorem c4_roundtrip_witness :
    parseStoreContent (trimChars (encodeStore c4GoodStore)) =
      c4GoodStore.map (fun p => (p.1, decodeEntryOf p.2)) ∧
    (parseStoreContent (trimChars (encodeStore c4GoodStore))).map Prod.fst =
      c4GoodStore.map Prod.fst ∧
    ∀ k : String,
      (lookupKey (parseStoreContent (trimChars (encodeStore c4GoodStore))) k).map
          (fun e => (e.userId, e.hwid, e.expiresAt)) =
        (lookupKey c4GoodStore k).map (fun e => (e.userId, e.hwid, e.expiresAt)) :=
  c4_roundtrip c4GoodStore (by decide) (by decide)
    (by unfold goodStore goodField; decide)

/-- Claim C1, witness: the four preserving operations applied at concrete
states. -/
theorem c1_core_ops_preserve_uniqueness_witness :
    invC1 (addKey [] "u1" hwA 0 "K").2 ∧
    invC1 (updateHwid ⟨oneKeyStore, []⟩ "u" hwB 5).2.data ∧
    invC1 (removeKey oneKeyStore "u").2 ∧
    invC1 (cleanExpiredKeys oneKeyStore 5).1 :=
  ⟨c1_core_ops_preserve_uniqueness.1 [] "u1" hwA 0 "K" rfl invC1_nil,
   c1_core_ops_preserve_uniqueness.2.1 ⟨oneKeyStore, []⟩ "u" hwB 5
     (invC1_singleton _),
   c1_core_ops_preserve_uniqueness.2.2.1 oneKeyStore "u" (invC1_singleton _),
   c1_core_ops_preserve_uniqueness.2.2.2 oneKeyStore 5 (invC1_singleton _)⟩

end KeySpec
